import Mathlib

/-!
# To-Do-List: the task store and its HTTP handlers

A shallow embedding of `src/main.go`.  The process-wide slice `todoList` is a
`List Task` threaded through every handler; an `http.ResponseWriter` is a
record of the header map, the status line once written, and the chunks written
to the body.  The library calls the handlers make (`url.Values.Get`,
`Request.FormValue`, `strconv.Atoi`, `strings.ToLower`, `strings.Contains`,
`http.Redirect`, `json.Encoder.Encode`, `Template.Execute`) are modelled by
their documented behaviour.  Go strings are taken to be valid text
(`String`); `int` is 64 bits wide.
-/

namespace TodoList

/-! ## Data model (main.go lines 17-26) -/

/-- The `Task` struct. -/
structure Task where
  Description : String
  ImageURL : String
  Completed : Bool
deriving DecidableEq, Repr

/-! ## Requests -/

/-- The part of `*http.Request` the handlers read: the method, the parsed URL
query (`r.URL.Query()`) and the parsed body parameters, each in wire order. -/
structure Request where
  Method : String
  query : List (String × String)
  postForm : List (String × String)
deriving DecidableEq, Repr

/-- Go `http.MethodGet`. -/
def MethodGet : String := "GET"

/-- Go `http.MethodPost`. -/
def MethodPost : String := "POST"

/-- Go `url.Values.Get`: the first value stored under the key, the empty
string when there is none. -/
def Values.Get : List (String × String) → String → String
  | [], _ => ""
  | (k, v) :: rest, key => if k = key then v else Values.Get rest key

/-- Go `r.URL.Query().Get(key)`. -/
def Request.queryGet (r : Request) (key : String) : String :=
  Values.Get r.query key

/-- Go `r.FormValue(key)`: for POST, PUT and PATCH the body parameters come
before the URL query values; other methods see the URL query only. -/
def Request.FormValue (r : Request) (key : String) : String :=
  if r.Method = "POST" ∨ r.Method = "PUT" ∨ r.Method = "PATCH" then
    Values.Get (r.postForm ++ r.query) key
  else
    Values.Get r.query key

/-! ## strconv.Atoi -/

/-- The two errors of `strconv`. -/
inductive NumError where
  | ErrSyntax
  | ErrRange
deriving DecidableEq, Repr

deriving instance DecidableEq for Except

/-- Width of Go `int`. -/
def intSize : Nat := 64

/-- The value of a decimal digit byte, `none` for any other character. -/
def digitVal (c : Char) : Option Nat :=
  if '0' ≤ c ∧ c ≤ '9' then some (c.toNat - '0'.toNat) else none

/-- Accumulate a run of decimal digits onto `acc`; `none` as soon as a
character is not a digit. -/
def parseDigits : List Char → Nat → Option Nat
  | [], acc => some acc
  | c :: cs, acc =>
    match digitVal c with
    | some d => parseDigits cs (acc * 10 + d)
    | none => none

/-- The unsigned part of `strconv.ParseInt(s, 10, 0)`: at least one digit. -/
def parseUnsigned (cs : List Char) : Except NumError Nat :=
  match cs with
  | [] => .error .ErrSyntax
  | _ :: _ =>
    match parseDigits cs 0 with
    | some n => .ok n
    | none => .error .ErrSyntax

/-- Go `strconv.Atoi`: an optional sign, then decimal digits; `ErrSyntax` on
anything else, `ErrRange` when the value does not fit an `int`. -/
def Atoi (s : String) : Except NumError Int :=
  match s.data with
  | [] => .error .ErrSyntax
  | c :: cs =>
    if c = '-' then
      match parseUnsigned cs with
      | .ok n => if n ≤ 2 ^ (intSize - 1) then .ok (-(n : Int)) else .error .ErrRange
      | .error e => .error e
    else if c = '+' then
      match parseUnsigned cs with
      | .ok n => if n < 2 ^ (intSize - 1) then .ok (n : Int) else .error .ErrRange
      | .error e => .error e
    else
      match parseUnsigned (c :: cs) with
      | .ok n => if n < 2 ^ (intSize - 1) then .ok (n : Int) else .error .ErrRange
      | .error e => .error e

/-! ## Responses -/

/-- What a handler writes to the body: the template executed on a task slice,
a JSON object of string fields, or the HTML anchor `http.Redirect` sends. -/
inductive Chunk where
  | template (data : List Task)
  | json (fields : List (String × String))
  | redirectNote (url : String) (code : Nat)
deriving DecidableEq, Repr

/-- An `http.ResponseWriter`: the live header map, the status and the headers
that went out with it once the header has been written, and the body. -/
structure ResponseWriter where
  header : List (String × String)
  status : Option Nat
  sentHeader : List (String × String)
  body : List Chunk
deriving DecidableEq, Repr

/-- The writer a handler is given. -/
def ResponseWriter.fresh : ResponseWriter :=
  { header := [], status := none, sentHeader := [], body := [] }

/-- Go `w.Header().Set(k, v)`. -/
def ResponseWriter.HeaderSet (w : ResponseWriter) (k v : String) : ResponseWriter :=
  { w with header := (k, v) :: w.header.filter (fun kv => decide (kv.1 ≠ k)) }

/-- Go `w.WriteHeader(code)`: the first call fixes the status and the headers
sent; later calls change nothing. -/
def ResponseWriter.WriteHeader (w : ResponseWriter) (code : Nat) : ResponseWriter :=
  match w.status with
  | some _ => w
  | none => { w with status := some code, sentHeader := w.header }

/-- Go `w.Write`: writes the header with status 200 first when it has not been
written yet. -/
def ResponseWriter.Write (w : ResponseWriter) (c : Chunk) : ResponseWriter :=
  let w1 := w.WriteHeader 200
  { w1 with body := w1.body ++ [c] }

def StatusOK : Nat := 200
def StatusFound : Nat := 302
def StatusBadRequest : Nat := 400

/-- Go `http.Redirect(w, r, url, code)` for a rooted `url`: sets `Location`,
for GET and HEAD a `Content-Type` when none is set, writes the header, and for
GET a short HTML body. -/
def Redirect (w : ResponseWriter) (r : Request) (url : String) (code : Nat) :
    ResponseWriter :=
  let hadCT := w.header.any (fun kv => decide (kv.1 = "Content-Type"))
  let w1 := w.HeaderSet "Location" url
  let w2 :=
    if !hadCT ∧ (r.Method = "GET" ∨ r.Method = "HEAD") then
      w1.HeaderSet "Content-Type" "text/html; charset=utf-8"
    else w1
  let w3 := w2.WriteHeader code
  if !hadCT ∧ r.Method = "GET" then
    w3.Write (.redirectNote url code)
  else w3

/-- Go `tmpl.Execute(w, data)`. -/
def tmplExecute (w : ResponseWriter) (data : List Task) : ResponseWriter :=
  w.Write (.template data)

/-- Go `json.NewEncoder(w).Encode(m)` for a `map[string]string`. -/
def jsonEncode (w : ResponseWriter) (m : List (String × String)) : ResponseWriter :=
  w.Write (.json m)

/-! ## strings.ToLower and strings.Contains -/

/-- Go `strings.ToLower`: pure-ASCII text has its `A`-`Z` moved to `a`-`z`;
any other text is mapped rune by rune through `unicode.ToLower`, which is taken
as the parameter `lowerRune`. -/
def ToLower (lowerRune : Char → Char) (s : String) : String :=
  if s.data.all (fun c => decide (c.toNat < 128)) then
    String.mk (s.data.map (fun c =>
      if 'A' ≤ c ∧ c ≤ 'Z' then Char.ofNat (c.toNat + ('a'.toNat - 'A'.toNat)) else c))
  else
    String.mk (s.data.map lowerRune)

/-- Does `p` start `l`? -/
def startsWith : List Char → List Char → Bool
  | [], _ => true
  | _ :: _, [] => false
  | a :: p, b :: l => decide (a = b) && startsWith p l

/-- Go `strings.Index(s, substr) >= 0` on the characters: scan the start
positions from the left. -/
def containsChars : List Char → List Char → Bool
  | [], sub => startsWith sub []
  | c :: cs, sub => startsWith sub (c :: cs) || containsChars cs sub

/-- Go `strings.Contains`. -/
def Contains (s substr : String) : Bool :=
  containsChars s.data substr.data

/-! ## The handlers (main.go lines 168-220) -/

/-- Go `searchTasks`: the `for ... range todoList` loop, appending each task
whose lower-cased description contains the lower-cased search text. -/
def searchTasks (lowerRune : Char → Char) (todoList : List Task) (search : String) :
    List Task :=
  todoList.foldl
    (fun result task =>
      if Contains (ToLower lowerRune task.Description) (ToLower lowerRune search) then
        result ++ [task]
      else result)
    []

/-- Go `indexHandler`. -/
def indexHandler (lowerRune : Char → Char) (todoList : List Task)
    (w : ResponseWriter) (r : Request) : List Task × ResponseWriter :=
  let search := r.queryGet "search"
  if search ≠ "" then
    let filteredTodoList := searchTasks lowerRune todoList search
    (todoList, tmplExecute w filteredTodoList)
  else
    (todoList, tmplExecute w todoList)

/-- Go `addHandler`. -/
def addHandler (todoList : List Task) (w : ResponseWriter) (r : Request) :
    List Task × ResponseWriter :=
  let todoList1 :=
    if r.Method = MethodPost then
      todoList ++ [{ Description := r.FormValue "task", ImageURL := "", Completed := false }]
    else todoList
  (todoList1, Redirect w r "/" StatusFound)

/-- Go `todoList[:index]` followed by `append(..., todoList[index+1:]...)`. -/
def spliceOut (todoList : List Task) (index : Nat) : List Task :=
  todoList.take index ++ todoList.drop (index + 1)

/-- The error tail of `deleteHandler` (lines 206-209). -/
def deleteError (w : ResponseWriter) : ResponseWriter :=
  let w1 := w.WriteHeader StatusBadRequest
  let w2 := w1.HeaderSet "Content-Type" "application/json"
  jsonEncode w2 [("error", "Invalid request")]

/-- Go `deleteHandler`. -/
def deleteHandler (todoList : List Task) (w : ResponseWriter) (r : Request) :
    List Task × ResponseWriter :=
  if r.Method = MethodGet then
    match Atoi (r.queryGet "index") with
    | .ok index =>
      if 0 ≤ index ∧ index < (todoList.length : Int) then
        let todoList1 := spliceOut todoList index.toNat
        let w1 := w.HeaderSet "Content-Type" "application/json"
        (todoList1, jsonEncode w1 [("message", "Task deleted successfully")])
      else (todoList, deleteError w)
    | .error _ => (todoList, deleteError w)
  else (todoList, deleteError w)

/-! ## Serving a sequence of requests (main.go lines 161-166) -/

/-- The handler `http.HandleFunc` registered for the pattern a request was
dispatched to: `"/"`, `"/add"` or `"/delete"`. -/
inductive Route where
  | index
  | add
  | delete
deriving DecidableEq, Repr

/-- One request served on a fresh response writer: the task list afterwards
and the response. -/
def serve (lowerRune : Char → Char) (todoList : List Task) (rt : Route) (r : Request) :
    List Task × ResponseWriter :=
  match rt with
  | .index => indexHandler lowerRune todoList ResponseWriter.fresh r
  | .add => addHandler todoList ResponseWriter.fresh r
  | .delete => deleteHandler todoList ResponseWriter.fresh r

/-- The task list after serving the requests one after the other. -/
def serveAll (lowerRune : Char → Char) (todoList : List Task)
    (reqs : List (Route × Request)) : List Task :=
  reqs.foldl (fun l q => (serve lowerRune l q.1 q.2).1) todoList

/-- The task a request adds, if it is a POST dispatched to `addHandler`. -/
def addedTask (q : Route × Request) : Option Task :=
  if q.1 = Route.add ∧ q.2.Method = MethodPost then
    some { Description := q.2.FormValue "task", ImageURL := "", Completed := false }
  else none

/-! ## Concurrent `addHandler` goroutines

Each request is served on its own goroutine.  A goroutine running `addHandler`
is a small state machine over the shared `todoList` and the mutex `mu`; a
schedule picks which goroutine takes the next step.  The assignment on line 188
is split into the read of `todoList` and the write of the appended slice, so
that only the mutex keeps two goroutines from interleaving them. -/

/-- The task `addHandler` builds from a request (line 188). -/
def newTask (r : Request) : Task :=
  { Description := r.FormValue "task", ImageURL := "", Completed := false }

/-- The next statement of a goroutine running `addHandler`. -/
inductive Pc where
  /-- line 185, the method test -/
  | start
  /-- line 186, `mu.Lock()` -/
  | lock
  /-- line 188, reading `todoList` as the operand of `append` -/
  | read
  /-- line 188, assigning the appended slice, built from the value read -/
  | write (tmp : List Task)
  /-- line 190, `http.Redirect`; `locked` tells whether `mu.Unlock` is deferred -/
  | redirect (locked : Bool)
  /-- the deferred `mu.Unlock()` at return -/
  | unlock
  /-- returned -/
  | done
deriving DecidableEq, Repr

/-- A goroutine serving one request. -/
structure Goroutine where
  r : Request
  w : ResponseWriter
  pc : Pc
deriving DecidableEq, Repr

/-- The shared state and the goroutines. -/
structure World where
  todoList : List Task
  mu : Bool
  gs : List Goroutine
deriving DecidableEq, Repr

/-- One statement of a goroutine against the shared state: the new shared
state and goroutine, or `none` when it cannot move (waiting for `mu`, or
returned). -/
def stepG (todoList : List Task) (mu : Bool) (g : Goroutine) :
    Option (List Task × Bool × Goroutine) :=
  match g.pc with
  | .start =>
    some (todoList, mu,
      { g with pc := if g.r.Method = MethodPost then Pc.lock else Pc.redirect false })
  | .lock => if mu then none else some (todoList, true, { g with pc := Pc.read })
  | .read => some (todoList, mu, { g with pc := Pc.write todoList })
  | .write tmp => some (tmp ++ [newTask g.r], mu, { g with pc := Pc.redirect true })
  | .redirect locked =>
    some (todoList, mu,
      { g with w := Redirect g.w g.r "/" StatusFound,
               pc := if locked then Pc.unlock else Pc.done })
  | .unlock => some (todoList, false, { g with pc := Pc.done })
  | .done => none

/-- The scheduler lets goroutine `k` take a step; nothing happens when there
is no such goroutine or it cannot move. -/
def step (s : World) (k : Nat) : World :=
  match s.gs[k]? with
  | none => s
  | some g =>
    match stepG s.todoList s.mu g with
    | none => s
    | some (l, m, g1) => { todoList := l, mu := m, gs := s.gs.set k g1 }

/-- Run a schedule. -/
def runSchedule (s : World) (sched : List Nat) : World :=
  sched.foldl step s

/-- One fresh goroutine per request, the mutex free. -/
def spawn (L : List Task) (rs : List Request) : World :=
  { todoList := L, mu := false,
    gs := rs.map (fun r => { r := r, w := ResponseWriter.fresh, pc := Pc.start }) }

/-- Every goroutine has returned. -/
def allDone (s : World) : Bool :=
  s.gs.all (fun g => decide (g.pc = Pc.done))

/-- The goroutine holds `mu`. -/
def inCrit (g : Goroutine) : Bool :=
  match g.pc with
  | .read => true
  | .write _ => true
  | .redirect true => true
  | .unlock => true
  | _ => false

/-- The task a goroutine has appended so far, if any. -/
def wrote (g : Goroutine) : Option Task :=
  match g.pc with
  | .redirect true => some (newTask g.r)
  | .unlock => some (newTask g.r)
  | .done => some (newTask g.r)
  | _ => none

/-- Statements a goroutine still has to execute, at most. -/
def remaining (g : Goroutine) : Nat :=
  match g.pc with
  | .start => 6
  | .lock => 5
  | .read => 4
  | .write _ => 3
  | .redirect _ => 2
  | .unlock => 1
  | .done => 0

/-- Statements left in the whole world. -/
def totalRemaining (s : World) : Nat :=
  (s.gs.map remaining).sum

/-- What holds in every world reachable from `spawn L rs` when all requests
are POSTs: the requests are those spawned, none skipped the locked branch, the
list is `L` followed by the tasks written so far in some order, the mutex is
held exactly when one goroutine is between `Lock` and `Unlock`, and a value
read for `append` is still the current list. -/
structure Inv (L : List Task) (rs : List Request) (s : World) : Prop where
  reqs : s.gs.map (fun g => g.r) = rs
  noBare : ∀ g ∈ s.gs, g.pc ≠ Pc.redirect false
  list : ∃ suf, s.todoList = L ++ suf ∧ suf.Perm (s.gs.filterMap wrote)
  crit : s.gs.countP inCrit = if s.mu then 1 else 0
  tmp : ∀ g ∈ s.gs, ∀ t, g.pc = Pc.write t → t = s.todoList

/-! # Theorems

## Library facts -/

theorem spliceOut_eq_eraseIdx (L : List Task) (i : Nat) :
    spliceOut L i = L.eraseIdx i := by
  unfold spliceOut
  exact (List.eraseIdx_eq_take_drop_succ L i).symm

theorem Values_Get_absent (vs : List (String × String)) (key : String)
    (h : ∀ kv ∈ vs, kv.1 ≠ key) : Values.Get vs key = "" := by
  induction vs with
  | nil => rfl
  | cons kv rest ih =>
    obtain ⟨k, v⟩ := kv
    have hk : k ≠ key := h (k, v) (List.mem_cons_self _ _)
    simp only [Values.Get, hk, if_false]
    exact ih (fun kv hkv => h kv (List.mem_cons_of_mem _ hkv))

theorem Atoi_empty : Atoi "" = .error .ErrSyntax := by decide

/-! ## deleteHandler -/

theorem deleteHandler_hit (L : List Task) (w : ResponseWriter) (r : Request) (i : Int)
    (hm : r.Method = MethodGet) (hp : Atoi (r.queryGet "index") = .ok i)
    (h0 : 0 ≤ i) (hlt : i < (L.length : Int)) :
    deleteHandler L w r =
      (L.eraseIdx i.toNat,
        jsonEncode (w.HeaderSet "Content-Type" "application/json")
          [("message", "Task deleted successfully")]) := by
  unfold deleteHandler
  rw [if_pos hm, hp]
  simp only [if_pos (And.intro h0 hlt), spliceOut_eq_eraseIdx]

theorem deleteHandler_miss (L : List Task) (w : ResponseWriter) (r : Request)
    (h : r.Method ≠ MethodGet ∨
      ∀ i, Atoi (r.queryGet "index") = .ok i → i < 0 ∨ (L.length : Int) ≤ i) :
    deleteHandler L w r = (L, deleteError w) := by
  unfold deleteHandler
  by_cases hm : r.Method = MethodGet
  · rw [if_pos hm]
    rcases h with h | h
    · exact absurd hm h
    · cases hp : Atoi (r.queryGet "index") with
      | error e => rfl
      | ok i =>
        have hi := h i hp
        have hn : ¬ (0 ≤ i ∧ i < (L.length : Int)) := by omega
        simp only [if_neg hn]
  · rw [if_neg hm]

theorem deleteError_fresh :
    (deleteError ResponseWriter.fresh).status = some StatusBadRequest ∧
    (deleteError ResponseWriter.fresh).body = [Chunk.json [("error", "Invalid request")]] := by
  decide

/-- C1: a GET /delete whose index parameter parses to `i` with `0 ≤ i < len(L)`
leaves the list equal to `L` with exactly position `i` removed (positions
before `i` unchanged, each later element one position down, length one less)
and answers status 200 with the payload "Task deleted successfully". -/
theorem deleteHandler_success (L : List Task) (r : Request) (i : Int)
    (hm : r.Method = MethodGet) (hp : Atoi (r.queryGet "index") = .ok i)
    (h0 : 0 ≤ i) (hlt : i < (L.length : Int)) :
    (deleteHandler L ResponseWriter.fresh r).1 = L.eraseIdx i.toNat ∧
    (deleteHandler L ResponseWriter.fresh r).1.length + 1 = L.length ∧
    (∀ k : Nat, k < i.toNat → (deleteHandler L ResponseWriter.fresh r).1[k]? = L[k]?) ∧
    (∀ k : Nat, i.toNat ≤ k →
      (deleteHandler L ResponseWriter.fresh r).1[k]? = L[k + 1]?) ∧
    (deleteHandler L ResponseWriter.fresh r).2.status = some StatusOK ∧
    (deleteHandler L ResponseWriter.fresh r).2.body =
      [Chunk.json [("message", "Task deleted successfully")]] := by
  rw [deleteHandler_hit L _ r i hm hp h0 hlt]
  have hlen : i.toNat < L.length := by omega
  refine ⟨rfl, ?_, ?_, ?_, ?_, ?_⟩
  · simp only [List.length_eraseIdx_of_lt hlen]; omega
  · intro k hk; exact List.getElem?_eraseIdx_of_lt L _ k hk
  · intro k hk; exact List.getElem?_eraseIdx_of_ge L _ k hk
  · rfl
  · rfl

/-- C1 at the spec's example: from [A, B, C], Delete(1) yields [A, C]. -/
theorem deleteHandler_success_witness :
    (deleteHandler [⟨"A", "", false⟩, ⟨"B", "", false⟩, ⟨"C", "", false⟩]
        ResponseWriter.fresh ⟨"GET", [("index", "1")], []⟩).1
      = [⟨"A", "", false⟩, ⟨"C", "", false⟩] ∧
    (deleteHandler [⟨"A", "", false⟩, ⟨"B", "", false⟩, ⟨"C", "", false⟩]
        ResponseWriter.fresh ⟨"GET", [("index", "1")], []⟩).2.status = some 200 ∧
    (deleteHandler [⟨"A", "", false⟩, ⟨"B", "", false⟩, ⟨"C", "", false⟩]
        ResponseWriter.fresh ⟨"GET", [("index", "1")], []⟩).2.body
      = [Chunk.json [("message", "Task deleted successfully")]] := by
  have h := deleteHandler_success
    [⟨"A", "", false⟩, ⟨"B", "", false⟩, ⟨"C", "", false⟩]
    ⟨"GET", [("index", "1")], []⟩ 1 (by decide) (by decide) (by decide) (by decide)
  exact ⟨h.1, h.2.2.2.2.1, h.2.2.2.2.2⟩

/-- C2: a /delete request whose method is not GET, or whose index parameter is
missing, does not parse, is negative or is at least `len(L)`, is answered with
status 400 and the payload "Invalid request", and the task list stays `L`. -/
theorem deleteHandler_failure_atomic (L : List Task) (r : Request)
    (h : r.Method ≠ MethodGet ∨
      (∀ kv ∈ r.query, kv.1 ≠ "index") ∨
      (∃ e, Atoi (r.queryGet "index") = .error e) ∨
      (∃ i, Atoi (r.queryGet "index") = .ok i ∧ (i < 0 ∨ (L.length : Int) ≤ i))) :
    (deleteHandler L ResponseWriter.fresh r).1 = L ∧
    (deleteHandler L ResponseWriter.fresh r).2.status = some StatusBadRequest ∧
    (deleteHandler L ResponseWriter.fresh r).2.body =
      [Chunk.json [("error", "Invalid request")]] := by
  have hmiss : deleteHandler L ResponseWriter.fresh r = (L, deleteError ResponseWriter.fresh) := by
    apply deleteHandler_miss
    rcases h with h | h | h | h
    · exact Or.inl h
    · right; intro i hi
      have hq : r.queryGet "index" = "" := Values_Get_absent _ _ h
      rw [hq, Atoi_empty] at hi
      cases hi
    · right; intro i hi
      obtain ⟨e, he⟩ := h
      rw [he] at hi
      cases hi
    · right; intro i hi
      obtain ⟨j, hj, hb⟩ := h
      rw [hj] at hi
      cases hi
      exact hb
  rw [hmiss]
  exact ⟨rfl, deleteError_fresh.1, deleteError_fresh.2⟩

/-- C2 at the spec's example: from [A, C], Delete(5) gives 400 and the list
stays [A, C]. -/
theorem deleteHandler_failure_atomic_witness :
    (deleteHandler [⟨"A", "", false⟩, ⟨"C", "", false⟩]
        ResponseWriter.fresh ⟨"GET", [("index", "5")], []⟩).1
      = [⟨"A", "", false⟩, ⟨"C", "", false⟩] ∧
    (deleteHandler [⟨"A", "", false⟩, ⟨"C", "", false⟩]
        ResponseWriter.fresh ⟨"GET", [("index", "5")], []⟩).2.status = some 400 ∧
    (deleteHandler [⟨"A", "", false⟩, ⟨"C", "", false⟩]
        ResponseWriter.fresh ⟨"GET", [("index", "5")], []⟩).2.body
      = [Chunk.json [("error", "Invalid request")]] :=
  deleteHandler_failure_atomic [⟨"A", "", false⟩, ⟨"C", "", false⟩]
    ⟨"GET", [("index", "5")], []⟩
    (Or.inr (Or.inr (Or.inr ⟨5, by decide, Or.inr (by decide)⟩)))

/-! ## addHandler -/

theorem addHandler_post (L : List Task) (w : ResponseWriter) (r : Request)
    (hm : r.Method = MethodPost) :
    (addHandler L w r).1 =
      L ++ [{ Description := r.FormValue "task", ImageURL := "", Completed := false }] := by
  simp only [addHandler, if_pos hm]

theorem addHandler_other (L : List Task) (w : ResponseWriter) (r : Request)
    (hm : r.Method ≠ MethodPost) : (addHandler L w r).1 = L := by
  simp only [addHandler, if_neg hm]

theorem Redirect_fresh_status (r : Request) (url : String) (code : Nat) :
    (Redirect ResponseWriter.fresh r url code).status = some code ∧
    Values.Get (Redirect ResponseWriter.fresh r url code).sentHeader "Location" = url := by
  unfold Redirect
  by_cases hg : r.Method = "GET"
  · simp [hg, ResponseWriter.fresh, ResponseWriter.HeaderSet, ResponseWriter.WriteHeader,
      ResponseWriter.Write, Values.Get]
  · by_cases hh : r.Method = "HEAD"
    · simp [hh, ResponseWriter.fresh, ResponseWriter.HeaderSet, ResponseWriter.WriteHeader,
        ResponseWriter.Write, Values.Get]
    · simp [hg, hh, ResponseWriter.fresh, ResponseWriter.HeaderSet,
        ResponseWriter.WriteHeader, ResponseWriter.Write, Values.Get]

/-- C5: on a method other than POST `addHandler` leaves the task list as it
was, and on every method the response is a 302 redirect to "/". -/
theorem addHandler_non_post_noop (L : List Task) (r : Request) :
    (r.Method ≠ MethodPost → (addHandler L ResponseWriter.fresh r).1 = L) ∧
    (addHandler L ResponseWriter.fresh r).2.status = some StatusFound ∧
    Values.Get (addHandler L ResponseWriter.fresh r).2.sentHeader "Location" = "/" :=
  ⟨addHandler_other L _ r, (Redirect_fresh_status r "/" StatusFound).1,
    (Redirect_fresh_status r "/" StatusFound).2⟩

/-- C5 at a GET /add carrying a task field: nothing is added, 302 to "/". -/
theorem addHandler_non_post_noop_witness :
    (addHandler [⟨"A", "", false⟩] ResponseWriter.fresh
        ⟨"GET", [("task", "B")], []⟩).1 = [⟨"A", "", false⟩] ∧
    (addHandler [⟨"A", "", false⟩] ResponseWriter.fresh
        ⟨"GET", [("task", "B")], []⟩).2.status = some 302 ∧
    Values.Get (addHandler [⟨"A", "", false⟩] ResponseWriter.fresh
        ⟨"GET", [("task", "B")], []⟩).2.sentHeader "Location" = "/" :=
  ⟨(addHandler_non_post_noop [⟨"A", "", false⟩] ⟨"GET", [("task", "B")], []⟩).1 (by decide),
    (addHandler_non_post_noop [⟨"A", "", false⟩] ⟨"GET", [("task", "B")], []⟩).2⟩

/-- C6: a POST /add with task field `d` (the empty string included) leaves the
list equal to `L` followed by the one task `{d, "", false}`: every element of
`L` keeps its position and the length grows by one. -/
theorem addHandler_appends (L : List Task) (r : Request) (d : String)
    (hm : r.Method = MethodPost) (hd : r.FormValue "task" = d) :
    (addHandler L ResponseWriter.fresh r).1 =
      L ++ [{ Description := d, ImageURL := "", Completed := false }] ∧
    (addHandler L ResponseWriter.fresh r).1.length = L.length + 1 ∧
    (∀ k : Nat, k < L.length → (addHandler L ResponseWriter.fresh r).1[k]? = L[k]?) ∧
    (addHandler L ResponseWriter.fresh r).1[L.length]? =
      some { Description := d, ImageURL := "", Completed := false } := by
  rw [addHandler_post L _ r hm, hd]
  refine ⟨rfl, by simp, ?_, by simp⟩
  intro k hk
  exact List.getElem?_append_left hk

/-- C6 at the empty description: the empty-description task is appended. -/
theorem addHandler_appends_witness :
    (addHandler [⟨"A", "", false⟩] ResponseWriter.fresh ⟨"POST", [], [("task", "")]⟩).1 =
      [⟨"A", "", false⟩, ⟨"", "", false⟩] :=
  (addHandler_appends [⟨"A", "", false⟩] ⟨"POST", [], [("task", "")]⟩ ""
    (by decide) (by decide)).1

/-! ## searchTasks -/

theorem startsWith_iff (p l : List Char) : startsWith p l = true ↔ p <+: l := by
  induction p generalizing l with
  | nil => simp [startsWith]
  | cons a p ih =>
    cases l with
    | nil => simp [startsWith]
    | cons b l =>
      simp only [startsWith, Bool.and_eq_true, decide_eq_true_eq, ih, List.cons_prefix_cons]

theorem containsChars_iff (l sub : List Char) : containsChars l sub = true ↔ sub <:+: l := by
  induction l with
  | nil =>
    simp only [containsChars, startsWith_iff, List.prefix_nil, List.infix_nil]
  | cons c cs ih =>
    simp only [containsChars, Bool.or_eq_true, startsWith_iff, ih, List.infix_cons_iff]

theorem Contains_iff (s substr : String) :
    Contains s substr = true ↔ substr.data <:+: s.data :=
  containsChars_iff s.data substr.data

theorem foldl_append_if (p : Task → Bool) (L init : List Task) :
    L.foldl (fun result task => if p task then result ++ [task] else result) init
      = init ++ L.filter p := by
  induction L generalizing init with
  | nil => simp
  | cons t rest ih =>
    rw [List.foldl_cons, ih]
    by_cases h : p t
    · simp [h, List.filter_cons]
    · simp [h, List.filter_cons]

theorem searchTasks_eq_filter (lowerRune : Char → Char) (L : List Task) (s : String) :
    searchTasks lowerRune L s =
      L.filter (fun t => Contains (ToLower lowerRune t.Description) (ToLower lowerRune s)) := by
  unfold searchTasks
  rw [foldl_append_if (fun t => Contains (ToLower lowerRune t.Description) (ToLower lowerRune s))]
  simp

/-- C4: `searchTasks` returns exactly the tasks of the list whose lower-cased
description has the lower-cased search text as a substring, each once and in
the list's order (a sublist of the list); when no task matches the result is
empty. -/
theorem searchTasks_case_insensitive_filter (lowerRune : Char → Char) (L : List Task)
    (s : String) :
    searchTasks lowerRune L s =
      L.filter (fun t =>
        decide ((ToLower lowerRune s).data <:+: (ToLower lowerRune t.Description).data)) ∧
    (searchTasks lowerRune L s).Sublist L ∧
    (∀ t, t ∈ searchTasks lowerRune L s ↔
      t ∈ L ∧ (ToLower lowerRune s).data <:+: (ToLower lowerRune t.Description).data) ∧
    ((∀ t ∈ L, ¬ (ToLower lowerRune s).data <:+: (ToLower lowerRune t.Description).data) →
      searchTasks lowerRune L s = []) := by
  have hfun : (fun t : Task =>
        Contains (ToLower lowerRune t.Description) (ToLower lowerRune s)) =
      (fun t : Task =>
        decide ((ToLower lowerRune s).data <:+: (ToLower lowerRune t.Description).data)) := by
    funext t
    rw [Bool.eq_iff_iff, Contains_iff, decide_eq_true_eq]
  have heq := searchTasks_eq_filter lowerRune L s
  rw [hfun] at heq
  refine ⟨heq, ?_, ?_, ?_⟩
  · rw [heq]; exact List.filter_sublist L
  · intro t; rw [heq]; simp [List.mem_filter]
  · intro hno; rw [heq, List.filter_eq_nil_iff]
    intro t ht; simpa using hno t ht

/-- C4 at the spec's example: with the single task "Buy Milk", search "milk"
returns that task and search "xyz" returns nothing. -/
theorem searchTasks_case_insensitive_filter_witness :
    searchTasks Char.toLower [⟨"Buy Milk", "", false⟩] "milk" = [⟨"Buy Milk", "", false⟩] ∧
    searchTasks Char.toLower [⟨"Buy Milk", "", false⟩] "xyz" = [] :=
  ⟨((searchTasks_case_insensitive_filter Char.toLower [⟨"Buy Milk", "", false⟩] "milk").1).trans
      (by decide),
    (searchTasks_case_insensitive_filter Char.toLower [⟨"Buy Milk", "", false⟩] "xyz").2.2.2
      (by decide)⟩

/-! ## indexHandler -/

theorem tmplExecute_fresh (data : List Task) :
    (tmplExecute ResponseWriter.fresh data).body = [Chunk.template data] ∧
    (tmplExecute ResponseWriter.fresh data).status = some StatusOK := by
  exact ⟨rfl, rfl⟩

theorem indexHandler_fst (lowerRune : Char → Char) (L : List Task) (w : ResponseWriter)
    (r : Request) : (indexHandler lowerRune L w r).1 = L := by
  by_cases h : r.queryGet "search" ≠ ""
  · simp only [indexHandler, if_pos h]
  · simp only [indexHandler, if_neg h]

theorem indexHandler_search (lowerRune : Char → Char) (L : List Task) (w : ResponseWriter)
    (r : Request) (h : r.queryGet "search" ≠ "") :
    (indexHandler lowerRune L w r).2 =
      tmplExecute w (searchTasks lowerRune L (r.queryGet "search")) := by
  simp only [indexHandler, if_pos h]

theorem indexHandler_all (lowerRune : Char → Char) (L : List Task) (w : ResponseWriter)
    (r : Request) (h : r.queryGet "search" = "") :
    (indexHandler lowerRune L w r).2 = tmplExecute w L := by
  have hn : ¬ (r.queryGet "search" ≠ "") := fun hne => hne h
  simp only [indexHandler, if_neg hn]

/-- C9: `indexHandler` renders `searchTasks(search)` when the search query
parameter is present and non-empty, renders the full list in its order when it
is absent or empty, and leaves the task list unchanged either way. -/
theorem indexHandler_view (lowerRune : Char → Char) (L : List Task) (r : Request) :
    (r.queryGet "search" ≠ "" →
      (indexHandler lowerRune L ResponseWriter.fresh r).2.body =
        [Chunk.template (searchTasks lowerRune L (r.queryGet "search"))]) ∧
    ((∀ kv ∈ r.query, kv.1 ≠ "search") ∨ r.queryGet "search" = "" →
      (indexHandler lowerRune L ResponseWriter.fresh r).2.body = [Chunk.template L]) ∧
    (indexHandler lowerRune L ResponseWriter.fresh r).1 = L ∧
    (indexHandler lowerRune L ResponseWriter.fresh r).2.status = some StatusOK := by
  refine ⟨?_, ?_, indexHandler_fst lowerRune L _ r, ?_⟩
  · intro h
    rw [indexHandler_search lowerRune L _ r h]
    exact (tmplExecute_fresh _).1
  · intro h
    have hq : r.queryGet "search" = "" := by
      rcases h with h | h
      · exact Values_Get_absent _ _ h
      · exact h
    rw [indexHandler_all lowerRune L _ r hq]
    exact (tmplExecute_fresh _).1
  · by_cases h : r.queryGet "search" = ""
    · rw [indexHandler_all lowerRune L _ r h]
      exact (tmplExecute_fresh _).2
    · rw [indexHandler_search lowerRune L _ r h]
      exact (tmplExecute_fresh _).2

/-- C9 at concrete requests: `?search=milk` renders the filtered view, a
request without a search parameter renders the whole list. -/
theorem indexHandler_view_witness :
    (indexHandler Char.toLower [⟨"Buy Milk", "", false⟩, ⟨"Walk", "", false⟩]
        ResponseWriter.fresh ⟨"GET", [("search", "milk")], []⟩).2.body =
      [Chunk.template (searchTasks Char.toLower
        [⟨"Buy Milk", "", false⟩, ⟨"Walk", "", false⟩] "milk")] ∧
    (indexHandler Char.toLower [⟨"Buy Milk", "", false⟩, ⟨"Walk", "", false⟩]
        ResponseWriter.fresh ⟨"GET", [], []⟩).2.body =
      [Chunk.template [⟨"Buy Milk", "", false⟩, ⟨"Walk", "", false⟩]] :=
  ⟨(indexHandler_view Char.toLower [⟨"Buy Milk", "", false⟩, ⟨"Walk", "", false⟩]
      ⟨"GET", [("search", "milk")], []⟩).1 (by decide),
    (indexHandler_view Char.toLower [⟨"Buy Milk", "", false⟩, ⟨"Walk", "", false⟩]
      ⟨"GET", [], []⟩).2.1 (Or.inr (by decide))⟩

/-! ## Sequences of requests -/

theorem serveAll_nil (lowerRune : Char → Char) (L : List Task) :
    serveAll lowerRune L [] = L := rfl

theorem serveAll_cons (lowerRune : Char → Char) (L : List Task) (q : Route × Request)
    (rest : List (Route × Request)) :
    serveAll lowerRune L (q :: rest) =
      serveAll lowerRune (serve lowerRune L q.1 q.2).1 rest := rfl

theorem serveAll_adds (lowerRune : Char → Char) (L : List Task) (rs : List Request)
    (hpost : ∀ q ∈ rs, q.Method = MethodPost) :
    serveAll lowerRune L (rs.map (fun q => (Route.add, q))) =
      L ++ rs.map (fun q =>
        ({ Description := q.FormValue "task", ImageURL := "", Completed := false } : Task)) := by
  induction rs generalizing L with
  | nil => simp [serveAll_nil]
  | cons q rest ih =>
    have hq : q.Method = MethodPost := hpost q (List.mem_cons_self _ _)
    rw [List.map_cons, serveAll_cons]
    have hs : (serve lowerRune L Route.add q).1 =
        L ++ [{ Description := q.FormValue "task", ImageURL := "", Completed := false }] :=
      addHandler_post L _ q hq
    rw [hs, ih _ (fun x hx => hpost x (List.mem_cons_of_mem _ hx))]
    simp

/-- C3: starting from the empty list, after POST /add with task fields
`d1, ..., dn` in that order, a render without a search parameter passes the
template exactly `n` tasks whose descriptions are `[d1, ..., dn]` in that
order. -/
theorem add_then_render_insertion_order (lowerRune : Char → Char) (rs : List Request)
    (r : Request) (hpost : ∀ q ∈ rs, q.Method = MethodPost)
    (hs : ∀ kv ∈ r.query, kv.1 ≠ "search") :
    ∃ tasks : List Task,
      (indexHandler lowerRune (serveAll lowerRune [] (rs.map (fun q => (Route.add, q))))
        ResponseWriter.fresh r).2.body = [Chunk.template tasks] ∧
      tasks.length = rs.length ∧
      tasks.map Task.Description = rs.map (fun q => q.FormValue "task") := by
  refine ⟨rs.map (fun q =>
    ({ Description := q.FormValue "task", ImageURL := "", Completed := false } : Task)),
    ?_, by simp, ?_⟩
  · rw [serveAll_adds lowerRune [] rs hpost, List.nil_append,
      indexHandler_all lowerRune _ _ r (Values_Get_absent _ _ hs)]
    exact (tmplExecute_fresh _).1
  · rw [List.map_map]
    rfl

/-- C3 at the spec's example: Add("A"), Add("B"), Add("C"), then Render shows
["A", "B", "C"]. -/
theorem add_then_render_insertion_order_witness :
    ∃ tasks : List Task,
      (indexHandler Char.toLower
        (serveAll Char.toLower []
          ([⟨"POST", [], [("task", "A")]⟩, ⟨"POST", [], [("task", "B")]⟩,
            ⟨"POST", [], [("task", "C")]⟩].map (fun q => (Route.add, q))))
        ResponseWriter.fresh ⟨"GET", [], []⟩).2.body = [Chunk.template tasks] ∧
      tasks.length = 3 ∧
      tasks.map Task.Description = ["A", "B", "C"] :=
  add_then_render_insertion_order Char.toLower
    [⟨"POST", [], [("task", "A")]⟩, ⟨"POST", [], [("task", "B")]⟩,
      ⟨"POST", [], [("task", "C")]⟩]
    ⟨"GET", [], []⟩ (by decide) (by decide)

/-! ## The unused fields -/

theorem serve_sublist (lowerRune : Char → Char) (L : List Task) (q : Route × Request) :
    (serve lowerRune L q.1 q.2).1.Sublist (L ++ (addedTask q).toList) := by
  obtain ⟨rt, r⟩ := q
  cases rt with
  | index =>
    have h : (serve lowerRune L Route.index r).1 = L :=
      indexHandler_fst lowerRune L _ r
    rw [h]
    exact List.sublist_append_left L _
  | add =>
    by_cases hm : r.Method = MethodPost
    · have h : (serve lowerRune L Route.add r).1 =
          L ++ [{ Description := r.FormValue "task", ImageURL := "", Completed := false }] :=
        addHandler_post L _ r hm
      rw [h]
      simp [addedTask, hm]
    · have h : (serve lowerRune L Route.add r).1 = L := addHandler_other L _ r hm
      rw [h]
      exact List.sublist_append_left L _
  | delete =>
    have hsub : (serve lowerRune L Route.delete r).1.Sublist L := by
      show (deleteHandler L ResponseWriter.fresh r).1.Sublist L
      unfold deleteHandler
      split
      · split
        · split
          · simp only [spliceOut_eq_eraseIdx]
            exact List.eraseIdx_sublist L _
          · exact List.Sublist.refl L
        · exact List.Sublist.refl L
      · exact List.Sublist.refl L
    exact hsub.trans (List.sublist_append_left L _)

theorem serveAll_sublist (lowerRune : Char → Char) (L : List Task)
    (reqs : List (Route × Request)) :
    (serveAll lowerRune L reqs).Sublist (L ++ reqs.filterMap addedTask) := by
  induction reqs generalizing L with
  | nil => simp [serveAll_nil]
  | cons q rest ih =>
    rw [serveAll_cons]
    refine (ih _).trans ?_
    have h1 := (serve_sublist lowerRune L q).append_right (rest.filterMap addedTask)
    refine h1.trans ?_
    rw [List.append_assoc]
    cases hq : addedTask q with
    | none => simp [List.filterMap_cons, hq]
    | some t => simp [List.filterMap_cons, hq]

theorem addedTask_fields (q : Route × Request) (t : Task) (h : addedTask q = some t) :
    t.Completed = false ∧ t.ImageURL = "" ∧
    q.1 = Route.add ∧ q.2.Method = MethodPost ∧ t.Description = q.2.FormValue "task" := by
  unfold addedTask at h
  split at h
  · rename_i hc
    cases h
    exact ⟨rfl, rfl, hc.1, hc.2, rfl⟩
  · cases h

/-- C8: in every state reached from the empty list by any sequence of requests
to the three handlers, every task has `Completed = false` and `ImageURL = ""`,
and the tasks in the list are, in order, tasks exactly as some POST /add
created them: each one's description is the task field of that request. -/
theorem unused_fields_stay_default (lowerRune : Char → Char)
    (reqs : List (Route × Request)) :
    (∀ t ∈ serveAll lowerRune [] reqs, t.Completed = false ∧ t.ImageURL = "") ∧
    (serveAll lowerRune [] reqs).Sublist (reqs.filterMap addedTask) ∧
    (∀ t ∈ serveAll lowerRune [] reqs, ∃ q ∈ reqs,
      q.1 = Route.add ∧ q.2.Method = MethodPost ∧ t.Description = q.2.FormValue "task") := by
  have hsub : (serveAll lowerRune [] reqs).Sublist (reqs.filterMap addedTask) := by
    have h := serveAll_sublist lowerRune [] reqs
    rwa [List.nil_append] at h
  have hmem : ∀ t ∈ serveAll lowerRune [] reqs, ∃ q ∈ reqs, addedTask q = some t := by
    intro t ht
    have h := hsub.subset ht
    rw [List.mem_filterMap] at h
    exact h
  refine ⟨?_, hsub, ?_⟩
  · intro t ht
    obtain ⟨q, _, hq⟩ := hmem t ht
    have hf := addedTask_fields q t hq
    exact ⟨hf.1, hf.2.1⟩
  · intro t ht
    obtain ⟨q, hqm, hq⟩ := hmem t ht
    have hf := addedTask_fields q t hq
    exact ⟨q, hqm, hf.2.2.1, hf.2.2.2.1, hf.2.2.2.2⟩

/-! ## Two deletes in a row -/

theorem eraseIdx_eraseIdx_of_le (L : List Task) (i j : Nat) (hij : i ≤ j) :
    (L.eraseIdx i).eraseIdx j = (L.eraseIdx (j + 1)).eraseIdx i := by
  apply List.ext_getElem?
  intro k
  simp only [List.getElem?_eraseIdx]
  by_cases h1 : k < j
  · by_cases h2 : k < i
    · have h3 : k < j + 1 := by omega
      simp only [h1, h2, h3, if_true]
    · have h3 : k + 1 < j + 1 := by omega
      simp only [h1, h2, h3, if_true, if_false]
  · have h2 : ¬ k < i := by omega
    have h3 : ¬ k + 1 < i := by omega
    have h4 : ¬ k + 1 < j + 1 := by omega
    simp only [h1, h2, h3, h4, if_false]

/-- C7: after a successful Delete(i), a Delete(j) with the index `j ≥ i` read
before the first deletion removes the element that was originally at position
`j + 1`: the list is `L` without its original positions `i` and `j + 1`, and for
`i < j` the original element `j` is still there, one position down.  When `j`
was the last position the second Delete answers 400 and removes nothing. -/
theorem stale_index_deletes_shifted (L : List Task) (r1 r2 : Request) (i j : Int)
    (hm1 : r1.Method = MethodGet) (hm2 : r2.Method = MethodGet)
    (hp1 : Atoi (r1.queryGet "index") = .ok i) (hp2 : Atoi (r2.queryGet "index") = .ok j)
    (h0 : 0 ≤ i) (hij : i ≤ j) :
    (j + 1 < (L.length : Int) →
      (deleteHandler L ResponseWriter.fresh r1).2.status = some StatusOK ∧
      (deleteHandler L ResponseWriter.fresh r1).1 = L.eraseIdx i.toNat ∧
      (deleteHandler L ResponseWriter.fresh r1).1[j.toNat]? = L[j.toNat + 1]? ∧
      (deleteHandler (deleteHandler L ResponseWriter.fresh r1).1
        ResponseWriter.fresh r2).2.status = some StatusOK ∧
      (deleteHandler (deleteHandler L ResponseWriter.fresh r1).1
        ResponseWriter.fresh r2).1 = (L.eraseIdx (j.toNat + 1)).eraseIdx i.toNat ∧
      (deleteHandler (deleteHandler L ResponseWriter.fresh r1).1
        ResponseWriter.fresh r2).1.length + 2 = L.length ∧
      (i < j →
        (deleteHandler (deleteHandler L ResponseWriter.fresh r1).1
          ResponseWriter.fresh r2).1[j.toNat - 1]? = L[j.toNat]?)) ∧
    (j + 1 = (L.length : Int) →
      (deleteHandler L ResponseWriter.fresh r1).2.status = some StatusOK ∧
      (deleteHandler L ResponseWriter.fresh r1).1 = L.eraseIdx i.toNat ∧
      (deleteHandler (deleteHandler L ResponseWriter.fresh r1).1
        ResponseWriter.fresh r2).2.status = some StatusBadRequest ∧
      (deleteHandler (deleteHandler L ResponseWriter.fresh r1).1
        ResponseWriter.fresh r2).1 = (deleteHandler L ResponseWriter.fresh r1).1) := by
  constructor
  · intro hj
    have hi : i < (L.length : Int) := by omega
    have hiN : i.toNat < L.length := by omega
    have hijN : i.toNat ≤ j.toNat := by omega
    have h1 := deleteHandler_hit L ResponseWriter.fresh r1 i hm1 hp1 h0 hi
    have hlen1 : (L.eraseIdx i.toNat).length = L.length - 1 :=
      List.length_eraseIdx_of_lt hiN
    have hj2 : j < ((L.eraseIdx i.toNat).length : Int) := by
      rw [hlen1]; omega
    have h2 := deleteHandler_hit (L.eraseIdx i.toNat) ResponseWriter.fresh r2 j hm2 hp2
      (by omega) hj2
    rw [h1, h2]
    have hcomm := eraseIdx_eraseIdx_of_le L i.toNat j.toNat hijN
    refine ⟨rfl, rfl, ?_, rfl, hcomm, ?_, ?_⟩
    · exact List.getElem?_eraseIdx_of_ge L _ _ hijN
    · show ((L.eraseIdx i.toNat).eraseIdx j.toNat).length + 2 = L.length
      have hjN : j.toNat < (L.eraseIdx i.toNat).length := by omega
      rw [List.length_eraseIdx_of_lt hjN, hlen1]
      omega
    · intro hlt
      show ((L.eraseIdx i.toNat).eraseIdx j.toNat)[j.toNat - 1]? = L[j.toNat]?
      have ha : j.toNat - 1 < j.toNat := by omega
      have hb : i.toNat ≤ j.toNat - 1 := by omega
      rw [List.getElem?_eraseIdx_of_lt _ _ _ ha, List.getElem?_eraseIdx_of_ge _ _ _ hb]
      have hc : j.toNat - 1 + 1 = j.toNat := by omega
      rw [hc]
  · intro hj
    have hi : i < (L.length : Int) := by omega
    have hiN : i.toNat < L.length := by omega
    have h1 := deleteHandler_hit L ResponseWriter.fresh r1 i hm1 hp1 h0 hi
    have hlen1 : (L.eraseIdx i.toNat).length = L.length - 1 :=
      List.length_eraseIdx_of_lt hiN
    have h2 := deleteHandler_miss (L.eraseIdx i.toNat) ResponseWriter.fresh r2
      (Or.inr (fun k hk => by
        rw [hp2] at hk
        cases hk
        right
        rw [hlen1]
        omega))
    rw [h1, h2]
    exact ⟨rfl, rfl, deleteError_fresh.1, rfl⟩

/-- C7 on [A, B, C, D]: Delete(1) then Delete(1) removes B and then C (the
task that started at position 2); on [A, B], Delete(0) then Delete(1) leaves
[B] and the second answer is 400. -/
theorem stale_index_deletes_shifted_witness :
    (deleteHandler (deleteHandler
        [⟨"A", "", false⟩, ⟨"B", "", false⟩, ⟨"C", "", false⟩, ⟨"D", "", false⟩]
        ResponseWriter.fresh ⟨"GET", [("index", "1")], []⟩).1
      ResponseWriter.fresh ⟨"GET", [("index", "1")], []⟩).1
      = [⟨"A", "", false⟩, ⟨"D", "", false⟩] ∧
    (deleteHandler (deleteHandler [⟨"A", "", false⟩, ⟨"B", "", false⟩]
        ResponseWriter.fresh ⟨"GET", [("index", "0")], []⟩).1
      ResponseWriter.fresh ⟨"GET", [("index", "1")], []⟩).2.status = some 400 :=
  ⟨((stale_index_deletes_shifted
        [⟨"A", "", false⟩, ⟨"B", "", false⟩, ⟨"C", "", false⟩, ⟨"D", "", false⟩]
        ⟨"GET", [("index", "1")], []⟩ ⟨"GET", [("index", "1")], []⟩ 1 1
        (by decide) (by decide) (by decide) (by decide) (by decide) (by decide)).1
      (by decide)).2.2.2.2.1,
    ((stale_index_deletes_shifted [⟨"A", "", false⟩, ⟨"B", "", false⟩]
        ⟨"GET", [("index", "0")], []⟩ ⟨"GET", [("index", "1")], []⟩ 0 1
        (by decide) (by decide) (by decide) (by decide) (by decide) (by decide)).2
      (by decide)).2.2.1⟩

/-! ## Goroutines under the mutex -/

theorem getElem?_split (l : List Goroutine) (k : Nat) (a : Goroutine)
    (h : l[k]? = some a) : ∃ A B, l = A ++ a :: B ∧ A.length = k := by
  induction l generalizing k with
  | nil => simp at h
  | cons x xs ih =>
    cases k with
    | zero =>
      simp only [List.getElem?_cons_zero, Option.some.injEq] at h
      exact ⟨[], xs, by simp [h], rfl⟩
    | succ n =>
      simp only [List.getElem?_cons_succ] at h
      obtain ⟨A, B, hl, hlen⟩ := ih n h
      exact ⟨x :: A, B, by simp [hl], by simp [hlen]⟩

theorem set_split (A B : List Goroutine) (a b : Goroutine) :
    (A ++ a :: B).set A.length b = A ++ b :: B := by
  induction A with
  | nil => rfl
  | cons x xs ih => simp [List.set, ih]

theorem step_split (l : List Task) (m : Bool) (A B : List Goroutine) (g : Goroutine) :
    step ⟨l, m, A ++ g :: B⟩ A.length =
      match stepG l m g with
      | none => ⟨l, m, A ++ g :: B⟩
      | some (l1, m1, g1) => ⟨l1, m1, A ++ g1 :: B⟩ := by
  unfold step
  have hget : (A ++ g :: B)[A.length]? = some g := by
    induction A with
    | nil => simp
    | cons x xs ih => simpa using ih
  simp only [hget, set_split]

theorem countP_split (A B : List Goroutine) (g : Goroutine) :
    (A ++ g :: B).countP inCrit =
      A.countP inCrit + B.countP inCrit + (if inCrit g = true then 1 else 0) := by
  rw [List.countP_append, List.countP_cons]
  omega

theorem countP_zero_not_write (A : List Goroutine) (h : A.countP inCrit = 0)
    (g : Goroutine) (hg : g ∈ A) (t : List Task) : g.pc ≠ Pc.write t := by
  intro hpc
  rw [List.countP_eq_zero] at h
  have := h g hg
  simp [inCrit, hpc] at this

theorem Inv_stepG (L : List Task) (rs : List Request)
    (hpost : ∀ r ∈ rs, r.Method = MethodPost)
    (l : List Task) (m : Bool) (A B : List Goroutine) (g g1 : Goroutine)
    (l1 : List Task) (m1 : Bool)
    (h : Inv L rs ⟨l, m, A ++ g :: B⟩) (hs : stepG l m g = some (l1, m1, g1)) :
    Inv L rs ⟨l1, m1, A ++ g1 :: B⟩ := by
  obtain ⟨hreqs, hbare, ⟨suf, hl, hperm⟩, hcrit, htmp⟩ := h
  simp only at hreqs hbare hl hperm hcrit htmp
  rw [countP_split] at hcrit
  have hgr : g.r ∈ rs := by
    rw [← hreqs]; simp
  have hgpost : g.r.Method = MethodPost := hpost _ hgr
  have hbareA : ∀ x ∈ A, x.pc ≠ Pc.redirect false := fun x hx =>
    hbare x (List.mem_append_left _ hx)
  have hbareB : ∀ x ∈ B, x.pc ≠ Pc.redirect false := fun x hx =>
    hbare x (List.mem_append_right _ (List.mem_cons_of_mem _ hx))
  have htmpA : ∀ x ∈ A, ∀ t, x.pc = Pc.write t → t = l := fun x hx =>
    htmp x (List.mem_append_left _ hx)
  have htmpB : ∀ x ∈ B, ∀ t, x.pc = Pc.write t → t = l := fun x hx =>
    htmp x (List.mem_append_right _ (List.mem_cons_of_mem _ hx))
  have htmpg : ∀ t, g.pc = Pc.write t → t = l :=
    htmp g (List.mem_append_right _ (List.mem_cons_self _ _))
  have hbareg : g.pc ≠ Pc.redirect false :=
    hbare g (List.mem_append_right _ (List.mem_cons_self _ _))
  rw [List.filterMap_append] at hperm
  obtain ⟨r, w, pc⟩ := g
  simp only at hgpost htmpg hbareg
  have key : ∀ (g2 : Goroutine), g2.r = r → g2.pc ≠ Pc.redirect false →
      (∃ suf1, l1 = L ++ suf1 ∧
        suf1.Perm (A.filterMap wrote ++ (g2 :: B).filterMap wrote)) →
      (A.countP inCrit + B.countP inCrit + (if inCrit g2 = true then 1 else 0)
        = if m1 = true then 1 else 0) →
      (∀ x ∈ A, ∀ t, x.pc = Pc.write t → t = l1) →
      (∀ x ∈ B, ∀ t, x.pc = Pc.write t → t = l1) →
      (∀ t, g2.pc = Pc.write t → t = l1) →
      Inv L rs ⟨l1, m1, A ++ g2 :: B⟩ := by
    intro g2 hr2 hb2 hlist hc2 hA hB hg2
    refine ⟨?_, ?_, ?_, ?_, ?_⟩
    · simp only [List.map_append, List.map_cons, hr2]
      simpa using hreqs
    · intro x hx
      rcases List.mem_append.1 hx with hx | hx
      · exact hbareA x hx
      · rcases List.mem_cons.1 hx with hx | hx
        · rw [hx]; exact hb2
        · exact hbareB x hx
    · obtain ⟨suf1, h1, h2⟩ := hlist
      refine ⟨suf1, h1, ?_⟩
      simp only [List.filterMap_append]
      exact h2
    · simp only
      rw [countP_split]
      exact hc2
    · intro x hx t ht
      rcases List.mem_append.1 hx with hx | hx
      · exact hA x hx t ht
      · rcases List.mem_cons.1 hx with hx | hx
        · rw [hx] at ht; exact hg2 t ht
        · exact hB x hx t ht
  cases pc with
  | start =>
    simp only [stepG, hgpost, if_true, Option.some.injEq, Prod.mk.injEq] at hs
    obtain ⟨rfl, rfl, rfl⟩ := hs
    apply key _ rfl (by simp)
    · exact ⟨suf, hl, hperm⟩
    · exact hcrit
    · exact htmpA
    · exact htmpB
    · intro t ht; simp at ht
  | lock =>
    cases m with
    | true => simp [stepG] at hs
    | false =>
      simp only [stepG, Bool.false_eq_true, if_false, Option.some.injEq, Prod.mk.injEq] at hs
      obtain ⟨rfl, rfl, rfl⟩ := hs
      apply key _ rfl (by simp)
      · exact ⟨suf, hl, hperm⟩
      · have h0 : A.countP inCrit + B.countP inCrit + 0 = 0 := hcrit
        show A.countP inCrit + B.countP inCrit + 1 = 1
        omega
      · exact htmpA
      · exact htmpB
      · intro t ht; simp at ht
  | read =>
    simp only [stepG, Option.some.injEq, Prod.mk.injEq] at hs
    obtain ⟨rfl, rfl, rfl⟩ := hs
    apply key _ rfl (by simp)
    · exact ⟨suf, hl, hperm⟩
    · exact hcrit
    · exact htmpA
    · exact htmpB
    · intro t ht
      simp only [Pc.write.injEq] at ht
      exact ht.symm
  | write t0 =>
    simp only [stepG, Option.some.injEq, Prod.mk.injEq] at hs
    obtain ⟨rfl, rfl, rfl⟩ := hs
    have ht0 : t0 = l := htmpg t0 rfl
    have hm : m = true ∧ A.countP inCrit = 0 ∧ B.countP inCrit = 0 := by
      cases m with
      | true =>
        have h0 : A.countP inCrit + B.countP inCrit + 1 = 1 := hcrit
        exact ⟨rfl, by omega, by omega⟩
      | false =>
        have h0 : A.countP inCrit + B.countP inCrit + 1 = 0 := hcrit
        omega
    apply key _ rfl (by simp)
    · refine ⟨suf ++ [newTask r], by rw [ht0, hl, List.append_assoc], ?_⟩
      have hperm0 : suf.Perm (A.filterMap wrote ++ B.filterMap wrote) := hperm
      show (suf ++ [newTask r]).Perm
        (A.filterMap wrote ++ newTask r :: B.filterMap wrote)
      have h1 : (suf ++ [newTask r]).Perm (newTask r :: suf) :=
        List.perm_append_singleton (newTask r) suf
      refine h1.trans ?_
      refine (List.Perm.cons _ hperm0).trans ?_
      exact List.perm_middle.symm
    · exact hcrit
    · intro x hx t ht
      exact absurd ht (countP_zero_not_write A hm.2.1 x hx t)
    · intro x hx t ht
      exact absurd ht (countP_zero_not_write B hm.2.2 x hx t)
    · intro t ht; simp at ht
  | redirect locked =>
    cases locked with
    | false => exact absurd rfl hbareg
    | true =>
      simp only [stepG, if_true, Option.some.injEq, Prod.mk.injEq] at hs
      obtain ⟨rfl, rfl, rfl⟩ := hs
      apply key _ rfl (by simp)
      · exact ⟨suf, hl, hperm⟩
      · exact hcrit
      · exact htmpA
      · exact htmpB
      · intro t ht; simp at ht
  | unlock =>
    simp only [stepG, Option.some.injEq, Prod.mk.injEq] at hs
    obtain ⟨rfl, rfl, rfl⟩ := hs
    have hm : A.countP inCrit = 0 ∧ B.countP inCrit = 0 := by
      cases m with
      | true =>
        have h0 : A.countP inCrit + B.countP inCrit + 1 = 1 := hcrit
        exact ⟨by omega, by omega⟩
      | false =>
        have h0 : A.countP inCrit + B.countP inCrit + 1 = 0 := hcrit
        omega
    apply key _ rfl (by simp)
    · exact ⟨suf, hl, hperm⟩
    · show A.countP inCrit + B.countP inCrit + 0 = 0
      omega
    · exact htmpA
    · exact htmpB
    · intro t ht; simp at ht
  | done => simp [stepG] at hs

theorem Inv_step (L : List Task) (rs : List Request)
    (hpost : ∀ r ∈ rs, r.Method = MethodPost) (s : World) (k : Nat)
    (h : Inv L rs s) : Inv L rs (step s k) := by
  obtain ⟨l, m, gs⟩ := s
  cases hk : gs[k]? with
  | none => simp only [step, hk]; exact h
  | some g =>
    obtain ⟨A, B, rfl, rfl⟩ := getElem?_split gs k g hk
    rw [step_split]
    cases hs : stepG l m g with
    | none => exact h
    | some out =>
      obtain ⟨l1, m1, g1⟩ := out
      exact Inv_stepG L rs hpost l m A B g g1 l1 m1 h hs

theorem Inv_spawn (L : List Task) (rs : List Request) : Inv L rs (spawn L rs) := by
  refine ⟨?_, ?_, ⟨[], by simp [spawn], ?_⟩, ?_, ?_⟩
  · simp [spawn, List.map_map, Function.comp_def]
  · intro g hg
    simp only [spawn, List.mem_map] at hg
    obtain ⟨r, _, rfl⟩ := hg
    simp
  · have : (spawn L rs).gs.filterMap wrote = [] := by
      rw [List.filterMap_eq_nil_iff]
      intro g hg
      simp only [spawn, List.mem_map] at hg
      obtain ⟨r, _, rfl⟩ := hg
      rfl
    rw [this]
  · have : (spawn L rs).gs.countP inCrit = 0 := by
      rw [List.countP_eq_zero]
      intro g hg
      simp only [spawn, List.mem_map] at hg
      obtain ⟨r, _, rfl⟩ := hg
      simp [inCrit]
    rw [this]; rfl
  · intro g hg t ht
    simp only [spawn, List.mem_map] at hg
    obtain ⟨r, _, rfl⟩ := hg
    simp at ht

theorem Inv_runSchedule (L : List Task) (rs : List Request)
    (hpost : ∀ r ∈ rs, r.Method = MethodPost) (sched : List Nat) (s : World)
    (h : Inv L rs s) : Inv L rs (runSchedule s sched) := by
  induction sched generalizing s with
  | nil => exact h
  | cons k rest ih => exact ih (step s k) (Inv_step L rs hpost s k h)

theorem runSchedule_append (s : World) (a b : List Nat) :
    runSchedule s (a ++ b) = runSchedule (runSchedule s a) b := by
  simp [runSchedule, List.foldl_append]

/-! ## Every schedule can be completed -/

theorem stepG_remaining (l : List Task) (m : Bool) (g g1 : Goroutine) (l1 : List Task)
    (m1 : Bool) (hs : stepG l m g = some (l1, m1, g1)) : remaining g1 < remaining g := by
  obtain ⟨r, w, pc⟩ := g
  cases pc with
  | start =>
    simp only [stepG, Option.some.injEq, Prod.mk.injEq] at hs
    obtain ⟨_, _, rfl⟩ := hs
    by_cases hm : r.Method = MethodPost
    · simp [remaining, hm]
    · simp [remaining, hm]
  | lock =>
    cases m with
    | true => simp [stepG] at hs
    | false =>
      simp only [stepG, Bool.false_eq_true, if_false, Option.some.injEq, Prod.mk.injEq] at hs
      obtain ⟨_, _, rfl⟩ := hs
      simp [remaining]
  | read =>
    simp only [stepG, Option.some.injEq, Prod.mk.injEq] at hs
    obtain ⟨_, _, rfl⟩ := hs
    simp [remaining]
  | write t =>
    simp only [stepG, Option.some.injEq, Prod.mk.injEq] at hs
    obtain ⟨_, _, rfl⟩ := hs
    simp [remaining]
  | redirect locked =>
    simp only [stepG, Option.some.injEq, Prod.mk.injEq] at hs
    obtain ⟨_, _, rfl⟩ := hs
    cases locked <;> simp [remaining]
  | unlock =>
    simp only [stepG, Option.some.injEq, Prod.mk.injEq] at hs
    obtain ⟨_, _, rfl⟩ := hs
    simp [remaining]
  | done => simp [stepG] at hs

theorem stepG_enabled (l : List Task) (m : Bool) (g : Goroutine)
    (hfree : m = false ∨ inCrit g = true) (hrem : 0 < remaining g) :
    ∃ out, stepG l m g = some out := by
  obtain ⟨r, w, pc⟩ := g
  cases pc with
  | start => exact ⟨_, rfl⟩
  | lock =>
    rcases hfree with h | h
    · subst h; exact ⟨_, rfl⟩
    · simp [inCrit] at h
  | read => exact ⟨_, rfl⟩
  | write t => exact ⟨_, rfl⟩
  | redirect locked => exact ⟨_, rfl⟩
  | unlock => exact ⟨_, rfl⟩
  | done => simp [remaining] at hrem

theorem totalRemaining_split (l : List Task) (m : Bool) (A B : List Goroutine)
    (g : Goroutine) :
    totalRemaining ⟨l, m, A ++ g :: B⟩ =
      (A.map remaining).sum + (B.map remaining).sum + remaining g := by
  simp only [totalRemaining, List.map_append, List.map_cons, List.sum_append, List.sum_cons]
  omega

theorem exists_pending (gs : List Goroutine) (h : 0 < (gs.map remaining).sum) :
    ∃ g ∈ gs, 0 < remaining g := by
  induction gs with
  | nil => simp at h
  | cons x xs ih =>
    by_cases hx : 0 < remaining x
    · exact ⟨x, List.mem_cons_self _ _, hx⟩
    · simp only [List.map_cons, List.sum_cons] at h
      have hxs : 0 < (xs.map remaining).sum := by omega
      obtain ⟨g, hg, hr⟩ := ih hxs
      exact ⟨g, List.mem_cons_of_mem _ hg, hr⟩

theorem allDone_of_totalRemaining_zero (s : World) (h : totalRemaining s = 0) :
    allDone s = true := by
  unfold allDone
  rw [List.all_eq_true]
  intro g hg
  by_contra hne
  have hpos : 0 < remaining g := by
    obtain ⟨r, w, pc⟩ := g
    cases pc <;> simp [remaining] at hne ⊢
  have hle : remaining g ≤ (s.gs.map remaining).sum :=
    List.single_le_sum (by intro x _; exact Nat.zero_le x) _ (List.mem_map_of_mem _ hg)
  unfold totalRemaining at h
  omega

theorem exists_progress (L : List Task) (rs : List Request) (s : World)
    (h : Inv L rs s) (hpos : 0 < totalRemaining s) :
    ∃ k, totalRemaining (step s k) < totalRemaining s := by
  obtain ⟨l, m, gs⟩ := s
  have hpick : ∃ g ∈ gs, 0 < remaining g ∧ (m = false ∨ inCrit g = true) := by
    cases m with
    | false =>
      obtain ⟨g, hg, hr⟩ := exists_pending gs hpos
      exact ⟨g, hg, hr, Or.inl rfl⟩
    | true =>
      have hc : 0 < gs.countP inCrit := by
        have := h.crit
        simp only [if_true] at this
        omega
      rw [List.countP_pos_iff] at hc
      obtain ⟨g, hg, hin⟩ := hc
      refine ⟨g, hg, ?_, Or.inr hin⟩
      obtain ⟨r, w, pc⟩ := g
      cases pc <;> simp [inCrit, remaining] at hin ⊢
  obtain ⟨g, hg, hr, hfree⟩ := hpick
  obtain ⟨A, B, rfl⟩ := List.append_of_mem hg
  obtain ⟨out, hout⟩ := stepG_enabled l m g hfree hr
  obtain ⟨l1, m1, g1⟩ := out
  refine ⟨A.length, ?_⟩
  rw [step_split, hout]
  simp only
  rw [totalRemaining_split, totalRemaining_split]
  have := stepG_remaining l m g g1 l1 m1 hout
  omega

theorem exists_completion (L : List Task) (rs : List Request)
    (hpost : ∀ r ∈ rs, r.Method = MethodPost) (n : Nat) :
    ∀ s : World, Inv L rs s → totalRemaining s ≤ n →
      ∃ more, allDone (runSchedule s more) = true := by
  induction n with
  | zero =>
    intro s _ hn
    exact ⟨[], allDone_of_totalRemaining_zero s (by omega)⟩
  | succ n ih =>
    intro s h hn
    by_cases hz : totalRemaining s = 0
    · exact ⟨[], allDone_of_totalRemaining_zero s hz⟩
    · obtain ⟨k, hk⟩ := exists_progress L rs s h (by omega)
      obtain ⟨more, hmore⟩ := ih (step s k) (Inv_step L rs hpost s k h) (by omega)
      exact ⟨k :: more, hmore⟩

/-! ## The final list -/

theorem goroutine_alone (L : List Task) (r : Request) :
    (runSchedule (spawn L [r]) [0, 0, 0, 0, 0, 0]).todoList =
        (addHandler L ResponseWriter.fresh r).1 ∧
    (runSchedule (spawn L [r]) [0, 0, 0, 0, 0, 0]).gs =
        [{ r := r, w := (addHandler L ResponseWriter.fresh r).2, pc := Pc.done }] ∧
    (runSchedule (spawn L [r]) [0, 0, 0, 0, 0, 0]).mu = false := by
  by_cases hm : r.Method = MethodPost
  · simp [runSchedule, spawn, step, stepG, addHandler, newTask, hm]
  · simp [runSchedule, spawn, step, stepG, addHandler, newTask, hm]

theorem filterMap_wrote_of_allDone (gs : List Goroutine)
    (h : ∀ g ∈ gs, g.pc = Pc.done) :
    gs.filterMap wrote = (gs.map (fun g => g.r)).map newTask := by
  induction gs with
  | nil => rfl
  | cons x xs ih =>
    have hx : x.pc = Pc.done := h x (List.mem_cons_self _ _)
    have hw : wrote x = some (newTask x.r) := by
      unfold wrote; rw [hx]
    rw [List.filterMap_cons, hw, ih (fun g hg => h g (List.mem_cons_of_mem _ hg))]
    rfl

/-- C10: when N POST /add requests are served by goroutines that interleave
in any order, once all of them have returned the list is `L` followed by the
N new tasks in some order, each exactly once, so its length is `len(L) + N`;
and every partial run can be continued until all goroutines have returned. -/
theorem concurrent_adds_lose_nothing (L : List Task) (rs : List Request)
    (hpost : ∀ r ∈ rs, r.Method = MethodPost) (sched : List Nat) :
    (allDone (runSchedule (spawn L rs) sched) = true →
      ∃ suf : List Task,
        (runSchedule (spawn L rs) sched).todoList = L ++ suf ∧
        suf.Perm (rs.map newTask) ∧
        (suf.map Task.Description).Perm (rs.map (fun r => r.FormValue "task")) ∧
        (runSchedule (spawn L rs) sched).todoList.length = L.length + rs.length) ∧
    (∃ more, allDone (runSchedule (spawn L rs) (sched ++ more)) = true) := by
  have hinv : Inv L rs (runSchedule (spawn L rs) sched) :=
    Inv_runSchedule L rs hpost sched _ (Inv_spawn L rs)
  constructor
  · intro hdone
    obtain ⟨suf, hl, hperm⟩ := hinv.list
    have hall : ∀ g ∈ (runSchedule (spawn L rs) sched).gs, g.pc = Pc.done := by
      intro g hg
      have := (List.all_eq_true.1 hdone) g hg
      simpa using this
    rw [filterMap_wrote_of_allDone _ hall, hinv.reqs] at hperm
    refine ⟨suf, hl, hperm, ?_, ?_⟩
    · have := hperm.map Task.Description
      rw [List.map_map] at this
      exact this
    · rw [hl, List.length_append, hperm.length_eq, List.length_map]
  · obtain ⟨more, hmore⟩ := exists_completion L rs hpost _ _ hinv (le_refl _)
    exact ⟨more, by rw [runSchedule_append]; exact hmore⟩

/-- C10 with two goroutines whose steps interleave: the second takes the
mutex first, the first waits for it, and both tasks end up in the list. -/
theorem concurrent_adds_lose_nothing_witness :
    ∃ suf : List Task,
      (runSchedule (spawn [⟨"Z", "", false⟩]
          [⟨"POST", [], [("task", "A")]⟩, ⟨"POST", [], [("task", "B")]⟩])
        [0, 1, 1, 0, 1, 1, 1, 1, 0, 0, 0, 0, 0]).todoList = [⟨"Z", "", false⟩] ++ suf ∧
      suf.Perm (([⟨"POST", [], [("task", "A")]⟩, ⟨"POST", [], [("task", "B")]⟩] :
        List Request).map newTask) ∧
      (suf.map Task.Description).Perm
        (([⟨"POST", [], [("task", "A")]⟩, ⟨"POST", [], [("task", "B")]⟩] :
          List Request).map (fun r => r.FormValue "task")) ∧
      (runSchedule (spawn [⟨"Z", "", false⟩]
          [⟨"POST", [], [("task", "A")]⟩, ⟨"POST", [], [("task", "B")]⟩])
        [0, 1, 1, 0, 1, 1, 1, 1, 0, 0, 0, 0, 0]).todoList.length = 1 + 2 :=
  (concurrent_adds_lose_nothing [⟨"Z", "", false⟩]
    [⟨"POST", [], [("task", "A")]⟩, ⟨"POST", [], [("task", "B")]⟩] (by decide)
    [0, 1, 1, 0, 1, 1, 1, 1, 0, 0, 0, 0, 0]).1 (by decide)

end TodoList
